import Mathlib

/-!
Shallow embedding of the codychain ledger engine
(src/blockchain/blockchain.py, src/blockchain/crypto.py,
src/blockchain/zk_proof.py).

Modelling conventions:
* Python `float` currency amounts are modelled as `ℚ`; Python's
  `float.is_integer()` becomes `den = 1` and `str(float)` for the
  non-integral rendering is an abstract parameter `pyStr : ℚ → String`.
* `hashlib.sha256(...).hexdigest()` on a serialized block is absorbed,
  together with the deterministic `json.dumps(..., sort_keys=True)`
  serialization, into an abstract parameter `H : BlockContent → String`;
  the string-level SHA-256 used by crypto.py / zk_proof.py is an abstract
  parameter `sha256hex : String → String`.
* The Ed25519 primitives of pynacl (`SigningKey.sign`,
  `VerifyKey.verify`) are abstract parameters `naclSign` / `naclVerify`;
  their correctness is assumed only as explicit hypotheses of theorems.
* Python truthiness (`if transaction.signature:` treats `None` and `""`
  as false, `if transaction.zk_proof:` treats `None` and `{}` as false,
  `x or y` falls through on falsy `x`) is modelled explicitly.
* The unbounded proof-of-work loop of `mine_block` takes a fuel
  parameter and returns `Option Block`; `none` models non-termination
  within the allotted fuel.
-/

namespace CodyChain

/-- Bytes are natural numbers; every value produced by hex decoding is
less than 256. -/
abbrev Bytes := List Nat

/-- Value of one hexadecimal digit, exactly the characters of Python's
`'0123456789abcdefABCDEF'`. -/
def hexVal (c : Char) : Option Nat :=
  if '0' ≤ c ∧ c ≤ '9' then some (c.toNat - '0'.toNat)
  else if 'a' ≤ c ∧ c ≤ 'f' then some (c.toNat - 'a'.toNat + 10)
  else if 'A' ≤ c ∧ c ≤ 'F' then some (c.toNat - 'A'.toNat + 10)
  else none

/-- ASCII whitespace skipped by CPython's `bytes.fromhex`. -/
def isPySpace (c : Char) : Bool :=
  c == ' ' || c == '\t' || c == '\n' || c == '\r' || c == '\x0b' || c == '\x0c'

/-- Core loop of CPython's `bytes.fromhex`: skip ASCII whitespace, then
read two consecutive hex digits per byte; anything else is an error
(modelled as `none`, where CPython raises `ValueError`). -/
def pyFromHexAux : List Char → Option Bytes
  | [] => some []
  | [c] => if isPySpace c then some [] else none
  | c :: c2 :: rest =>
    if isPySpace c then pyFromHexAux (c2 :: rest)
    else
      match hexVal c, hexVal c2 with
      | some hi, some lo => (pyFromHexAux rest).map fun bs => (hi * 16 + lo) :: bs
      | _, _ => none

/-- `bytes.fromhex` on a string. -/
def pyFromHex (s : String) : Option Bytes := pyFromHexAux s.data

/-- Membership in Python's literal `'0123456789abcdefABCDEF'`, used by the
hex-vs-UTF-8 disambiguation in crypto.py. -/
def isHexDigitPy (c : Char) : Bool := (hexVal c).isSome

/-- The crypto.py test `len(message) % 2 == 0 and all(c in '0123456789abcdefABCDEF' for c in message)`. -/
def isHexLike (s : String) : Bool :=
  s.length % 2 == 0 && s.data.all isHexDigitPy

/-- Lowercase hex digit character for a value below 16 (`bytes.hex()`). -/
def hexDigitChar (n : Nat) : Char :=
  if n < 10 then Char.ofNat ('0'.toNat + n) else Char.ofNat ('a'.toNat + (n - 10))

/-- Python's `bytes.hex()`: two lowercase hex digits per byte. -/
def bytesToHex (bs : Bytes) : String :=
  ⟨bs.foldr (fun b acc => hexDigitChar (b / 16) :: hexDigitChar (b % 16) :: acc) []⟩

/-- UTF-8 encoding of a string (`message.encode('utf-8')`). -/
def utf8Bytes (s : String) : Bytes := s.toUTF8.toList.map (·.toNat)

/-- List-level check that `px` occurs at the start of `s`. -/
def listLeads : List Char → List Char → Bool
  | [], _ => true
  | _ :: _, [] => false
  | a :: as, b :: bs => (a == b) && listLeads as bs

/-- Python's `s.startswith(px)`. -/
def pyStartsWith (s px : String) : Bool := listLeads px.data s.data

/-- Python truthiness of an optional string field (`None` and `""` are
falsy). -/
def pyTruthy : Option String → Bool
  | none => false
  | some s => !(s == "")

/-- Python's `a or b` for an optional-string left operand: falls through
to `b` when `a` is `None` or empty. -/
def pyOrElse (a : Option String) (b : String) : String :=
  match a with
  | none => b
  | some s => if s == "" then b else s

/-! ## Data model (models.py / zk_proof.py proof dictionaries) -/

/-- The proof dictionary produced by `generate_zk_proof` and consumed by
`verify_zk_proof`.  A field of `none` models an absent key; `some ""`
models a key present with an empty value.  `extra` records whether the
dictionary holds further keys (it only matters for Python truthiness of
the dictionary itself). -/
structure ZKProof where
  commitment : Option String
  challenge : Option String
  response : Option String
  message_hash : Option String
  extra : Bool
deriving DecidableEq

/-- Python truthiness of a `dict`: true exactly when it has at least one
key. -/
def ZKProof.truthy (p : ZKProof) : Bool :=
  p.commitment.isSome || p.challenge.isSome || p.response.isSome ||
    p.message_hash.isSome || p.extra

/-- Truthiness of the optional `zk_proof` field. -/
def pyTruthyZk : Option ZKProof → Bool
  | none => false
  | some p => p.truthy

/-- The pydantic `Transaction` model of models.py. -/
structure Transaction where
  sender : String
  receiver : String
  amount : ℚ
  signature : Option String := none
  zk_proof : Option ZKProof := none
  timestamp : Option String := none
deriving DecidableEq

/-- The five fields of a block that enter its hash, in the role of the
`json.dumps(..., sort_keys=True)` serialization of `Block.compute_hash`. -/
structure BlockContent where
  index : ℤ
  timestamp : String
  transactions : List Transaction
  previous_hash : String
  nonce : ℤ
deriving DecidableEq

/-- A `Block` of blockchain.py: the hashed fields plus the stored
`hash` field. -/
structure Block where
  index : ℤ
  timestamp : String
  transactions : List Transaction
  previous_hash : String
  nonce : ℤ
  hash : String
deriving DecidableEq

/-- Content of a block: everything `Block.compute_hash` serializes. -/
def Block.content (b : Block) : BlockContent :=
  ⟨b.index, b.timestamp, b.transactions, b.previous_hash, b.nonce⟩

/-- `Block.compute_hash`: SHA-256 of the sorted-keys JSON serialization of
index, timestamp, transactions, previous_hash and nonce, with the
serialize-and-digest composite abstracted as `H`. -/
def Block.compute_hash (H : BlockContent → String) (b : Block) : String :=
  H b.content

/-- `Block.__init__`: stores the five fields and computes the hash. -/
def mkBlock (H : BlockContent → String) (index : ℤ) (timestamp : String)
    (transactions : List Transaction) (previous_hash : String)
    (nonce : ℤ := 0) : Block :=
  { index := index, timestamp := timestamp, transactions := transactions,
    previous_hash := previous_hash, nonce := nonce,
    hash := H ⟨index, timestamp, transactions, previous_hash, nonce⟩ }

/-- The mutable state of the `Blockchain` class.  Python dictionaries
(`dev_users`, `public_keys`) are insertion-ordered association lists.
`saves` counts the calls to `save_to_file`, so that "a persistence
snapshot is triggered" is observable in the model. -/
structure Blockchain where
  chain : List Block
  pending_transactions : List Transaction
  dev_users : List (String × String)
  public_keys : List (String × String)
  saves : Nat
deriving DecidableEq

/-! ## crypto.py -/

/-- The message-encoding disambiguation inside `sign_message`: decode as
hex when the string has even length and only hex digits, else encode as
UTF-8. -/
def signMessageBytes (message : String) : Bytes :=
  if isHexLike message then (pyFromHex message).getD [] else utf8Bytes message

/-- The identical disambiguation duplicated inside `verify_signature`. -/
def verifyMessageBytes (message : String) : Bytes :=
  if isHexLike message then (pyFromHex message).getD [] else utf8Bytes message

/-- `sign_message`: disambiguate the message into bytes, sign with the
abstract Ed25519 primitive, return the signature hex-encoded
(`signature.signature.hex()`). -/
def sign_message (naclSign : Bytes → String → Bytes)
    (message private_key_hex : String) : String :=
  bytesToHex (naclSign (signMessageBytes message) private_key_hex)

/-- `verify_signature`: disambiguate the message, decode the signature
from hex (`bytes.fromhex`), and apply the abstract Ed25519 verification;
every failure path of the source's `try` block yields `false`
(a failing `bytes.fromhex` is the explicit `none` case, failures inside
pynacl are absorbed into `naclVerify` returning `false`). -/
def verify_signature (naclVerify : Bytes → Bytes → String → Bool)
    (message signature_hex public_key_hex : String) : Bool :=
  match pyFromHex signature_hex with
  | none => false
  | some signature_bytes =>
    naclVerify (verifyMessageBytes message) signature_bytes public_key_hex

/-- Amount rendering of `sign_transaction` / `verify_transaction_signature`:
a whole-number float renders as `f"{int(amount)}.0"`, anything else via
`str(amount)` (the abstract `pyStr`). -/
def amountStr (pyStr : ℚ → String) (a : ℚ) : String :=
  if a.den = 1 then toString a.num ++ ".0" else pyStr a

/-- The canonical transaction message
`f"{sender}:{receiver}:{amount_str}:{timestamp}"`. -/
def txMessage (pyStr : ℚ → String) (sender receiver : String) (amount : ℚ)
    (timestamp : String) : String :=
  sender ++ ":" ++ receiver ++ ":" ++ amountStr pyStr amount ++ ":" ++ timestamp

/-- `sign_transaction`: default the timestamp to now, build the canonical
message, SHA-256 it, and sign the hex digest via `sign_message`. -/
def sign_transaction (naclSign : Bytes → String → Bytes)
    (sha256hex : String → String) (pyStr : ℚ → String)
    (sender receiver : String) (amount : ℚ) (private_key_hex : String)
    (now : String) (timestamp : Option String) : String :=
  let ts := timestamp.getD now
  let message := txMessage pyStr sender receiver amount ts
  sign_message naclSign (sha256hex message) private_key_hex

/-- `verify_transaction_signature`: reconstruct the identical canonical
message and digest, then call `verify_signature`. -/
def verify_transaction_signature (naclVerify : Bytes → Bytes → String → Bool)
    (sha256hex : String → String) (pyStr : ℚ → String)
    (sender receiver : String) (amount : ℚ)
    (signature_hex public_key_hex : String)
    (now : String) (timestamp : Option String) : Bool :=
  let ts := timestamp.getD now
  let message := txMessage pyStr sender receiver amount ts
  verify_signature naclVerify (sha256hex message) signature_hex public_key_hex

/-! ## zk_proof.py -/

/-- `verify_zk_proof`: gate on Python truthiness of the four proof
fields, recompute the message hash and the challenge, and length-check
the hex-decoded response; any failure (including a `bytes.fromhex`
error, caught by the source's `except`) yields `false`. -/
def verify_zk_proof (sha256hex : String → String) (pyStr : ℚ → String)
    (proof : ZKProof) (sender receiver : String) (amount : ℚ) : Bool :=
  if !(pyTruthy proof.commitment && pyTruthy proof.challenge &&
       pyTruthy proof.response && pyTruthy proof.message_hash) then false
  else
    let message := sender ++ ":" ++ receiver ++ ":" ++ pyStr amount
    let expected_message_hash := sha256hex message
    if !(proof.message_hash.getD "" == expected_message_hash) then false
    else
      let challenge_data := proof.commitment.getD "" ++ ":" ++ proof.message_hash.getD ""
      let expected_challenge := sha256hex challenge_data
      if !(proof.challenge.getD "" == expected_challenge) then false
      else
        match pyFromHex (proof.response.getD "") with
        | none => false
        | some response_bytes => response_bytes.length == 32

/-! ## blockchain.py: mining -/

/-- One iteration of the proof-of-work loop:
`block.nonce += 1; block.hash = block.compute_hash()`. -/
def mineStep (H : BlockContent → String) (b : Block) : Block :=
  let b' := { b with nonce := b.nonce + 1 }
  { b' with hash := b'.compute_hash H }

/-- `Blockchain.mine_block`: loop until the hash starts with `"0000"`,
with explicit fuel bounding the number of iterations; `none` models not
terminating within the fuel. -/
def mine_block (H : BlockContent → String) : Nat → Block → Option Block
  | 0, b => if pyStartsWith b.hash "0000" then some b else none
  | fuel + 1, b =>
    if pyStartsWith b.hash "0000" then some b
    else mine_block H fuel (mineStep H b)

/-- The successive nonce values tried by `mine_block` (the nonce after
each `block.nonce += 1`, before the hash recomputation). -/
def mineNonces (H : BlockContent → String) : Nat → Block → List ℤ
  | 0, _ => []
  | fuel + 1, b =>
    if pyStartsWith b.hash "0000" then []
    else (b.nonce + 1) :: mineNonces H fuel (mineStep H b)

/-- `Blockchain.create_genesis_block`: index 0, empty transactions,
previous hash sentinel `"0"`, then mined. -/
def createGenesis (H : BlockContent → String) (fuel : Nat) (timestamp : String) :
    Option Block :=
  mine_block H fuel (mkBlock H 0 timestamp [] "0")

/-- Bootstrap of `Blockchain.__init__` when no persisted file exists:
genesis block, dev-user registry (addresses are random, therefore a
parameter), loaded public keys, and one `save_to_file` call. -/
def initBlockchain (H : BlockContent → String) (fuel : Nat) (timestamp : String)
    (dev_users public_keys : List (String × String)) : Option Blockchain :=
  (createGenesis H fuel timestamp).map fun g =>
    { chain := [g], pending_transactions := [], dev_users := dev_users,
      public_keys := public_keys, saves := 1 }

/-! ## blockchain.py: transaction admission -/

/-- The sender-resolution loop of `add_transaction`: the first dev-users
entry whose address or name equals the sender, yielding its name. -/
def resolveSenderUsername (dev_users : List (String × String)) (sender : String) :
    Option String :=
  (dev_users.find? fun p => p.1 == sender || p.2 == sender).map (·.2)

/-- `Blockchain.add_transaction`.  A raised `ValueError` is `.error` with
the exception's message; success returns the updated state (transaction
appended to the pending pool, `save_to_file` counted in `saves`).
The guard `if sender_username and sender_username in self.public_keys`
requires the resolved name to be truthy (non-empty) as well as present.
The `except ImportError` branch of the source never fires because
zk_proof.py is part of this repository, so it is not modelled. -/
def Blockchain.add_transaction (naclVerify : Bytes → Bytes → String → Bool)
    (sha256hex : String → String) (pyStr : ℚ → String) (now : String)
    (bc : Blockchain) (transaction : Transaction) : Except String Blockchain := do
  if pyTruthy transaction.signature then
    match resolveSenderUsername bc.dev_users transaction.sender with
    | some sender_username =>
      if sender_username == "" then
        pure ()
      else
        match bc.public_keys.lookup sender_username with
        | some public_key =>
          let timestamp := pyOrElse transaction.timestamp now
          if verify_transaction_signature naclVerify sha256hex pyStr
              transaction.sender transaction.receiver transaction.amount
              (transaction.signature.getD "") public_key now (some timestamp) then
            pure ()
          else
            throw "Invalid transaction signature"
        | none => pure ()
    | none => pure ()
  match transaction.zk_proof with
  | some proof =>
    if proof.truthy then
      if verify_zk_proof sha256hex pyStr proof transaction.sender
          transaction.receiver transaction.amount then
        pure ()
      else
        throw "Invalid zero-knowledge proof"
    else
      pure ()
  | none => pure ()
  pure { bc with pending_transactions := bc.pending_transactions ++ [transaction],
                 saves := bc.saves + 1 }

/-! ## blockchain.py: mining rewards and mine_pending_transactions -/

/-- Round half to even (the rounding of Python's `round`), on rationals. -/
def pyRoundHalfEven (q : ℚ) : ℤ :=
  let n := ⌊q⌋
  let f := q - n
  if f < 1/2 then n
  else if 1/2 < f then n + 1
  else if 2 ∣ n then n else n + 1

/-- Python's `round(x, 1)` on rationals. -/
def pyRound1 (q : ℚ) : ℚ := (pyRoundHalfEven (q * 10) : ℚ) / 10

/-- `Blockchain._calculate_mining_reward`: the `random.random()` draw is
the parameter `rand`, `random.uniform` is the abstract sampler
`uniform`. -/
def calculate_mining_reward (uniform : ℚ → ℚ → ℚ) (rand : ℚ) : ℚ :=
  if rand < 55/100 then pyRound1 (uniform (1/10) (5/10))
  else if rand < 80/100 then pyRound1 (uniform (6/10) (7/10))
  else if rand < 90/100 then pyRound1 (uniform (8/10) (9/10))
  else pyRound1 (uniform 1 (14/10))

/-- `Blockchain.mine_pending_transactions`: snapshot the pending pool,
optionally append the reward transaction, build a block on the chain
tip, mine it, append, clear the pool and save.  `none` models either the
`IndexError` of `self.chain[-1]` on an empty chain or mining running out
of fuel. -/
def Blockchain.mine_pending_transactions (H : BlockContent → String)
    (uniform : ℚ → ℚ → ℚ) (fuel : Nat) (now : String) (rand : ℚ)
    (miner_address : Option String) (bc : Blockchain) :
    Option (Block × Blockchain) :=
  let transactions_to_mine := bc.pending_transactions
  let transactions_to_mine :=
    if pyTruthy miner_address then
      transactions_to_mine ++
        [{ sender := "SYSTEM", receiver := miner_address.getD "",
           amount := calculate_mining_reward uniform rand }]
    else transactions_to_mine
  match bc.chain.getLast? with
  | none => none
  | some previous_block =>
    let new_block := mkBlock H (bc.chain.length : ℤ) now transactions_to_mine
      previous_block.hash
    (mine_block H fuel new_block).map fun mined_block =>
      (mined_block,
       { bc with chain := bc.chain ++ [mined_block],
                 pending_transactions := [], saves := bc.saves + 1 })

/-! ## blockchain.py: balances, validation, persistence -/

/-- `Blockchain.compute_balance`: one pass over every transaction of
every block, adding received and subtracting sent amounts. -/
def Blockchain.compute_balance (bc : Blockchain) (address : String) : ℚ :=
  bc.chain.foldl
    (fun balance block =>
      block.transactions.foldl
        (fun balance tx =>
          let balance := if tx.receiver == address then balance + tx.amount else balance
          if tx.sender == address then balance - tx.amount else balance)
        balance)
    0

/-- Body of the `validate_chain` loop from index 1 on: `prev` is the
block at the preceding index. -/
def valAux (H : BlockContent → String) : Block → List Block → Bool
  | _, [] => true
  | prev, b :: rest =>
    (b.hash == b.compute_hash H) && (b.previous_hash == prev.hash) &&
      valAux H b rest

/-- `Blockchain.validate_chain` on the chain list. -/
def validateChainList (H : BlockContent → String) : List Block → Bool
  | [] => true
  | g :: rest => valAux H g rest

/-- `Blockchain.validate_chain`. -/
def Blockchain.validate_chain (H : BlockContent → String) (bc : Blockchain) :
    Bool :=
  validateChainList H bc.chain

/-- The persisted JSON document of `save_to_file` (conceptual schema of
spec section 6); `block.to_dict()` carries exactly the fields of `Block`,
so the chain entry reuses `Block`. -/
structure SnapshotData where
  chain : List Block
  pending_transactions : List Transaction
  dev_users : List (String × String)
  last_saved : String
deriving DecidableEq

/-- `Blockchain.save_to_file`: serialize chain, pending pool and
dev-user registry (JSON encoding of this schema is faithful and is
elided). -/
def Blockchain.save_to_file (bc : Blockchain) (now : String) : SnapshotData :=
  { chain := bc.chain, pending_transactions := bc.pending_transactions,
    dev_users := bc.dev_users, last_saved := now }

/-- Block restoration inside `load_from_file`: the `Block` constructor
recomputes a hash from the stored fields, then the stored hash is
restored verbatim (`block.hash = block_data["hash"]`). -/
def restoreBlock (H : BlockContent → String) (block_data : Block) : Block :=
  { mkBlock H block_data.index block_data.timestamp block_data.transactions
      block_data.previous_hash block_data.nonce with hash := block_data.hash }

/-- `Blockchain.load_from_file` applied to a parsed snapshot: rebuild the
chain and pending pool, keep the dev-user registry unless it is empty
(in which case it is regenerated from randomness, here the parameter
`reinit_dev_users`).  `public_keys` and `saves` live outside the
snapshot and are untouched by the load. -/
def loadFromSnapshot (H : BlockContent → String) (snap : SnapshotData)
    (reinit_dev_users : List (String × String))
    (public_keys : List (String × String)) (saves : Nat) : Blockchain :=
  { chain := snap.chain.map (restoreBlock H),
    pending_transactions := snap.pending_transactions,
    dev_users := if snap.dev_users == [] then reinit_dev_users else snap.dev_users,
    public_keys := public_keys,
    saves := saves }

/-! ## Reachable in-process states -/

/-- States reachable by creating the genesis block and then performing
any sequence of `add_transaction` and `mine_pending_transactions`
operations, for any timestamps, crypto behaviour, randomness and mining
fuel. -/
inductive Reaches (H : BlockContent → String) : Blockchain → Prop where
  | boot : ∀ fuel timestamp dev_users public_keys bc,
      initBlockchain H fuel timestamp dev_users public_keys = some bc →
      Reaches H bc
  | add : ∀ bc bc' naclVerify sha256hex pyStr now tx,
      Reaches H bc →
      bc.add_transaction naclVerify sha256hex pyStr now tx = .ok bc' →
      Reaches H bc'
  | mine : ∀ bc bc' uniform fuel now rand miner blk,
      Reaches H bc →
      bc.mine_pending_transactions H uniform fuel now rand miner = some (blk, bc') →
      Reaches H bc'

/-! ## Lemmas about the proof-of-work loop -/

theorem mineStep_hash (H : BlockContent → String) (b : Block) :
    (mineStep H b).hash = (mineStep H b).compute_hash H := rfl

theorem mineStep_fields (H : BlockContent → String) (b : Block) :
    (mineStep H b).index = b.index ∧ (mineStep H b).timestamp = b.timestamp ∧
    (mineStep H b).transactions = b.transactions ∧
    (mineStep H b).previous_hash = b.previous_hash ∧
    (mineStep H b).nonce = b.nonce + 1 := by
  refine ⟨rfl, rfl, rfl, rfl, rfl⟩

theorem mine_block_hash (H : BlockContent → String) :
    ∀ (fuel : Nat) (b b' : Block), b.hash = b.compute_hash H →
      mine_block H fuel b = some b' →
      b'.hash = b'.compute_hash H ∧ pyStartsWith b'.hash "0000" = true := by
  intro fuel
  induction fuel with
  | zero =>
    intro b b' hb h
    unfold mine_block at h
    by_cases hs : pyStartsWith b.hash "0000" = true
    · simp [hs] at h
      subst h
      exact ⟨hb, hs⟩
    · simp [hs] at h
  | succ f ih =>
    intro b b' hb h
    unfold mine_block at h
    by_cases hs : pyStartsWith b.hash "0000" = true
    · simp [hs] at h
      subst h
      exact ⟨hb, hs⟩
    · simp [hs] at h
      exact ih (mineStep H b) b' (mineStep_hash H b) h

theorem mine_block_fields (H : BlockContent → String) :
    ∀ (fuel : Nat) (b b' : Block), mine_block H fuel b = some b' →
      b'.index = b.index ∧ b'.timestamp = b.timestamp ∧
      b'.transactions = b.transactions ∧ b'.previous_hash = b.previous_hash := by
  intro fuel
  induction fuel with
  | zero =>
    intro b b' h
    unfold mine_block at h
    by_cases hs : pyStartsWith b.hash "0000" = true
    · simp [hs] at h; subst h; exact ⟨rfl, rfl, rfl, rfl⟩
    · simp [hs] at h
  | succ f ih =>
    intro b b' h
    unfold mine_block at h
    by_cases hs : pyStartsWith b.hash "0000" = true
    · simp [hs] at h; subst h; exact ⟨rfl, rfl, rfl, rfl⟩
    · simp [hs] at h
      exact ih (mineStep H b) b' h

theorem mine_block_nonces (H : BlockContent → String) :
    ∀ (fuel : Nat) (b b' : Block), mine_block H fuel b = some b' →
      ∃ k : Nat, mineNonces H fuel b = (List.range k).map (fun j => b.nonce + (j + 1 : Nat)) ∧
        b'.nonce = b.nonce + k := by
  intro fuel
  induction fuel with
  | zero =>
    intro b b' h
    unfold mine_block at h
    by_cases hs : pyStartsWith b.hash "0000" = true
    · simp [hs] at h; subst h
      exact ⟨0, by simp [mineNonces], by simp⟩
    · simp [hs] at h
  | succ f ih =>
    intro b b' h
    unfold mine_block at h
    by_cases hs : pyStartsWith b.hash "0000" = true
    · simp [hs] at h; subst h
      exact ⟨0, by simp [mineNonces, hs], by simp⟩
    · simp [hs] at h
      obtain ⟨k, hk1, hk2⟩ := ih (mineStep H b) b' h
      refine ⟨k + 1, ?_, ?_⟩
      · show mineNonces H (f+1) b = _
        unfold mineNonces
        simp [hs]
        rw [hk1]
        rw [List.range_succ_eq_map]
        simp [List.map_map]
        intro a ha
        show (mineStep H b).nonce + _ = _
        simp [mineStep]
        ring
      · rw [hk2]
        show (mineStep H b).nonce + _ = _
        simp [mineStep]
        ring
      

/-- Successive-nonce helper: a start value followed by the arithmetic run
`start+1, ..., start+k` is a chain in which each entry is its predecessor
plus one. -/
theorem chain_succ_range (k : Nat) (s : ℤ) :
    List.Chain' (fun x y => y = x + 1)
      (s :: (List.range k).map (fun j => s + (j + 1 : Nat))) := by
  have hlist : s :: (List.range k).map (fun j => s + (j + 1 : Nat))
      = (List.range (k + 1)).map (fun j : Nat => s + j) := by
    rw [List.range_succ_eq_map, List.map_cons, List.map_map]
    simp [Function.comp_def]
  rw [hlist, List.chain'_map, List.chain'_range_succ]
  intro m hm
  push_cast
  ring

/-- Claim C4: for every block on which `mine_block` terminates, the
returned block's hash equals the recomputation of
H(index, timestamp, transactions, previous_hash, nonce), its hexadecimal
representation begins with four `'0'` characters, and during the search
the nonce strictly increases from its start value, incremented by one
before each hash recomputation, staying non-negative whenever the start
value is non-negative.  The hypothesis `hb` is the `Block.__init__`
invariant: every block the program ever passes to `mine_block` was built
by the constructor, which sets `hash = compute_hash()`. -/
theorem mine_block_pow_nonce_spec (H : BlockContent → String)
    (fuel : Nat) (b b' : Block)
    (hb : b.hash = b.compute_hash H)
    (h : mine_block H fuel b = some b') :
    b'.hash = b'.compute_hash H ∧
    pyStartsWith b'.hash "0000" = true ∧
    (∃ k : Nat,
      mineNonces H fuel b = (List.range k).map (fun j => b.nonce + (j + 1 : Nat)) ∧
      b'.nonce = b.nonce + k) ∧
    b.nonce ≤ b'.nonce ∧
    (∀ n ∈ mineNonces H fuel b, b.nonce < n) ∧
    List.Chain' (fun x y => y = x + 1) (b.nonce :: mineNonces H fuel b) ∧
    (0 ≤ b.nonce → 0 ≤ b'.nonce ∧ ∀ n ∈ mineNonces H fuel b, 0 ≤ n) := by
  obtain ⟨hh, hs⟩ := mine_block_hash H fuel b b' hb h
  obtain ⟨k, htr, hn⟩ := mine_block_nonces H fuel b b' h
  refine ⟨hh, hs, ⟨k, htr, hn⟩, ?_, ?_, ?_, ?_⟩
  · rw [hn]; omega
  · intro n hm
    rw [htr] at hm
    simp only [List.mem_map, List.mem_range] at hm
    obtain ⟨j, _, rfl⟩ := hm
    push_cast
    omega
  · rw [htr]; exact chain_succ_range k b.nonce
  · intro h0
    refine ⟨by rw [hn]; omega, ?_⟩
    intro n hm
    rw [htr] at hm
    simp only [List.mem_map, List.mem_range] at hm
    obtain ⟨j, _, rfl⟩ := hm
    push_cast
    omega

/-- Concrete hash used by the `mine_block` witness: two attempts are
needed before the difficulty target is met. -/
def hashW : BlockContent → String := fun c => if 2 ≤ c.nonce then "0000" else "1111"

/-- Start block of the `mine_block` witness. -/
def blockW : Block := ⟨0, "t", [], "0", 0, "1111"⟩

/-- Result block of the `mine_block` witness. -/
def blockW' : Block := ⟨0, "t", [], "0", 2, "0000"⟩

/-- Witness for the C4 theorem at a concrete block and hash function. -/
theorem mine_block_pow_nonce_spec_witness :
    pyStartsWith blockW'.hash "0000" = true ∧ blockW.nonce ≤ blockW'.nonce ∧
    mineNonces hashW 2 blockW = [1, 2] := by
  obtain ⟨h1, h2, h3, h4, h5⟩ :=
    mine_block_pow_nonce_spec hashW 2 blockW blockW' (by decide) (by decide)
  exact ⟨h2, h4, by decide⟩

/-! ## Characterization of add_transaction -/

/-- Decision of the invalid-signature rejection of `add_transaction`:
signature truthy, sender resolved to a dev-user name, that name has a
registered public key, and verification fails. -/
def sigRejects (naclVerify : Bytes → Bytes → String → Bool)
    (sha256hex : String → String) (pyStr : ℚ → String) (now : String)
    (bc : Blockchain) (tx : Transaction) : Bool :=
  pyTruthy tx.signature &&
    (match resolveSenderUsername bc.dev_users tx.sender with
     | some sender_username =>
       !(sender_username == "") &&
         (match bc.public_keys.lookup sender_username with
          | some public_key =>
            !(verify_transaction_signature naclVerify sha256hex pyStr
                tx.sender tx.receiver tx.amount (tx.signature.getD "") public_key
                now (some (pyOrElse tx.timestamp now)))
          | none => false)
     | none => false)

/-- Decision of the invalid-proof rejection of `add_transaction`:
zk_proof truthy and `verify_zk_proof` fails. -/
def zkRejects (sha256hex : String → String) (pyStr : ℚ → String)
    (tx : Transaction) : Bool :=
  match tx.zk_proof with
  | some proof =>
    proof.truthy && !(verify_zk_proof sha256hex pyStr proof tx.sender
      tx.receiver tx.amount)
  | none => false

/-- Closed-form description of `add_transaction`: signature rejection
first, proof rejection second, otherwise append-and-save. -/
theorem add_transaction_eq (naclVerify : Bytes → Bytes → String → Bool)
    (sha256hex : String → String) (pyStr : ℚ → String) (now : String)
    (bc : Blockchain) (tx : Transaction) :
    bc.add_transaction naclVerify sha256hex pyStr now tx =
      (if sigRejects naclVerify sha256hex pyStr now bc tx then
        .error "Invalid transaction signature"
      else if zkRejects sha256hex pyStr tx then
        .error "Invalid zero-knowledge proof"
      else
        .ok { bc with
              pending_transactions := bc.pending_transactions ++ [tx],
              saves := bc.saves + 1 }) := by
  unfold Blockchain.add_transaction sigRejects zkRejects
  cases hsig : pyTruthy tx.signature with
  | false =>
    simp only [Bool.false_and, if_false, Bool.false_eq_true, if_neg]
    cases hzk : tx.zk_proof with
    | none => simp [Except.bind, Except.pure, pure, Bind.bind]
    | some proof =>
      cases hpt : proof.truthy with
      | false => simp [Except.bind, Except.pure, pure, Bind.bind, hpt]
      | true =>
        cases hv : verify_zk_proof sha256hex pyStr proof tx.sender tx.receiver tx.amount with
        | false => simp [Except.bind, Except.pure, pure, Bind.bind, hpt, hv, throw, throwThe, MonadExceptOf.throw]
        | true => simp [Except.bind, Except.pure, pure, Bind.bind, hpt, hv]
  | true =>
    cases hres : resolveSenderUsername bc.dev_users tx.sender with
    | none =>
      cases hzk : tx.zk_proof with
      | none => simp [Except.bind, Except.pure, pure, Bind.bind]
      | some proof =>
        cases hpt : proof.truthy with
        | false => simp [Except.bind, Except.pure, pure, Bind.bind, hpt]
        | true =>
          cases hv : verify_zk_proof sha256hex pyStr proof tx.sender tx.receiver tx.amount with
          | false => simp [Except.bind, Except.pure, pure, Bind.bind, hpt, hv, throw, throwThe, MonadExceptOf.throw]
          | true => simp [Except.bind, Except.pure, pure, Bind.bind, hpt, hv]
    | some sender_username =>
      cases hemp : sender_username == "" with
      | true =>
        cases hzk : tx.zk_proof with
        | none => simp [Except.bind, Except.pure, pure, Bind.bind, hemp]
        | some proof =>
          cases hpt : proof.truthy with
          | false => simp [Except.bind, Except.pure, pure, Bind.bind, hemp, hpt]
          | true =>
            cases hv : verify_zk_proof sha256hex pyStr proof tx.sender tx.receiver tx.amount with
            | false => simp [Except.bind, Except.pure, pure, Bind.bind, hemp, hpt, hv, throw, throwThe, MonadExceptOf.throw]
            | true => simp [Except.bind, Except.pure, pure, Bind.bind, hemp, hpt, hv]
      | false =>
        cases hkey : bc.public_keys.lookup sender_username with
        | none =>
          cases hzk : tx.zk_proof with
          | none => simp [Except.bind, Except.pure, pure, Bind.bind, hemp, hkey]
          | some proof =>
            cases hpt : proof.truthy with
            | false => simp [Except.bind, Except.pure, pure, Bind.bind, hemp, hkey, hpt]
            | true =>
              cases hv : verify_zk_proof sha256hex pyStr proof tx.sender tx.receiver tx.amount with
              | false => simp [Except.bind, Except.pure, pure, Bind.bind, hemp, hkey, hpt, hv, throw, throwThe, MonadExceptOf.throw]
              | true => simp [Except.bind, Except.pure, pure, Bind.bind, hemp, hkey, hpt, hv]
        | some public_key =>
          cases hver : verify_transaction_signature naclVerify sha256hex pyStr tx.sender tx.receiver tx.amount (tx.signature.getD "") public_key now (some (pyOrElse tx.timestamp now)) with
          | false =>
            simp [Except.bind, Except.pure, pure, Bind.bind, hemp, hkey, hver, throw, throwThe, MonadExceptOf.throw]
          | true =>
            cases hzk : tx.zk_proof with
            | none => simp [Except.bind, Except.pure, pure, Bind.bind, hemp, hkey, hver]
            | some proof =>
              cases hpt : proof.truthy with
              | false => simp [Except.bind, Except.pure, pure, Bind.bind, hemp, hkey, hver, hpt]
              | true =>
                cases hv : verify_zk_proof sha256hex pyStr proof tx.sender tx.receiver tx.amount with
                | false => simp [Except.bind, Except.pure, pure, Bind.bind, hemp, hkey, hver, hpt, hv, throw, throwThe, MonadExceptOf.throw]
                | true => simp [Except.bind, Except.pure, pure, Bind.bind, hemp, hkey, hver, hpt, hv]

/-! ## Chain validation lemmas -/

/-- Index-wise description of the `validate_chain` loop body: `valAux H p rest`
is true exactly when every block of `rest` stores its recomputed hash and
links to the stored hash of its predecessor in `p :: rest`. -/
theorem valAux_iff (H : BlockContent → String) :
    ∀ (rest : List Block) (p : Block),
      valAux H p rest = true ↔
        ∀ (j : Nat) (bj bp : Block), rest[j]? = some bj → (p :: rest)[j]? = some bp →
          bj.hash = H bj.content ∧ bj.previous_hash = bp.hash := by
  intro rest
  induction rest with
  | nil => intro p; simp [valAux]
  | cons b bs ih =>
    intro p
    unfold valAux
    constructor
    · intro hval j bj bp hj hp
      rw [Bool.and_eq_true, Bool.and_eq_true] at hval
      obtain ⟨⟨h1, h2⟩, h3⟩ := hval
      cases j with
      | zero =>
        simp at hj hp
        subst hj; subst hp
        exact ⟨by simpa [Block.compute_hash] using h1, by simpa using h2⟩
      | succ k =>
        simp only [List.getElem?_cons_succ] at hj hp
        exact (ih b).mp h3 k bj bp hj hp
    · intro hall
      rw [Bool.and_eq_true, Bool.and_eq_true]
      refine ⟨⟨?_, ?_⟩, ?_⟩
      · have := hall 0 b p (by simp) (by simp)
        simpa [Block.compute_hash] using this.1
      · have := hall 0 b p (by simp) (by simp)
        simpa using this.2
      · refine (ih b).mpr ?_
        intro k bj bp hj hp
        exact hall (k + 1) bj bp (by simpa using hj) (by simpa using hp)

/-- The spec invariant of section 3: for every i > 0,
`chain[i].hash == H(chain[i])` and `chain[i].previous_hash == chain[i-1].hash`.
`validate_chain` decides exactly this. -/
theorem validate_chain_iff (H : BlockContent → String) (ch : List Block) :
    validateChainList H ch = true ↔
      ∀ (i : Nat) (bi bp : Block), 1 ≤ i → ch[i]? = some bi → ch[i - 1]? = some bp →
        bi.hash = H bi.content ∧ bi.previous_hash = bp.hash := by
  cases ch with
  | nil => simp [validateChainList]
  | cons g rest =>
    unfold validateChainList
    rw [valAux_iff]
    constructor
    · intro hall i bi bp h1 hi hp
      obtain ⟨j, rfl⟩ : ∃ j, i = j + 1 := ⟨i - 1, by omega⟩
      simp only [List.getElem?_cons_succ] at hi
      have hp' : (g :: rest)[j]? = some bp := by
        simpa [Nat.add_sub_cancel] using hp
      exact hall j bi bp hi hp'
    · intro hall j bj bp hj hp
      exact hall (j + 1) bj bp (by omega) (by simpa using hj)
        (by simpa [Nat.add_sub_cancel] using hp)

/-- Every reachable in-process state has a non-empty chain that
validates. -/
theorem reaches_validate (H : BlockContent → String) :
    ∀ bc, Reaches H bc → bc.chain ≠ [] ∧ bc.validate_chain H = true := by
  intro bc hr
  induction hr with
  | boot fuel ts dev pk bc h =>
    unfold initBlockchain at h
    cases hg : createGenesis H fuel ts with
    | none => rw [hg] at h; simp at h
    | some g =>
      rw [hg] at h
      simp at h
      subst h
      exact ⟨by simp, by simp [Blockchain.validate_chain, validateChainList, valAux]⟩
  | add bc bc' nv sha ps now tx hr hok ih =>
    rw [add_transaction_eq] at hok
    by_cases h1 : sigRejects nv sha ps now bc tx = true
    · simp [h1] at hok
    · by_cases h2 : zkRejects sha ps tx = true
      · simp [h1, h2] at hok
      · simp [h1, h2] at hok
        subst hok
        exact ih
  | mine bc bc' uniform fuel now rand miner blk hr hok ih =>
    obtain ⟨hne, hval⟩ := ih
    unfold Blockchain.mine_pending_transactions at hok
    cases hlast : bc.chain.getLast? with
    | none => rw [hlast] at hok; simp at hok
    | some prev =>
      rw [hlast] at hok
      rw [Option.map_eq_some'] at hok
      obtain ⟨mined, hmine, heq⟩ := hok
      have hfields := mine_block_fields H fuel _ mined hmine
      have hhash := mine_block_hash H fuel _ mined
        (by simp [mkBlock, Block.compute_hash, Block.content]) hmine
      have hbc' :
          ({ bc with
              chain := bc.chain ++ [mined],
              pending_transactions := [],
              saves := bc.saves + 1 } : Blockchain) = bc' :=
        congrArg Prod.snd heq
      subst hbc'
      refine ⟨by simp, ?_⟩
      show validateChainList H (bc.chain ++ [mined]) = true
      rw [validate_chain_iff]
      intro i bi bp h1 hi hp
      have hvalc : validateChainList H bc.chain = true := hval
      by_cases hilt : i < bc.chain.length
      · rw [List.getElem?_append_left hilt] at hi
        rw [List.getElem?_append_left (by omega)] at hp
        exact (validate_chain_iff H bc.chain).mp hvalc i bi bp h1 hi hp
      · by_cases hieq : i = bc.chain.length
        · subst hieq
          rw [List.getElem?_concat_length] at hi
          have hbi : bi = mined := by simpa using hi.symm
          subst hbi
          have hprev : bc.chain[bc.chain.length - 1]? = some prev := by
            rw [← List.getLast?_eq_getElem? bc.chain]
            exact hlast
          rw [List.getElem?_append_left (by
            have := List.length_pos.mpr hne
            omega)] at hp
          have hbp : bp = prev := by rw [hp] at hprev; exact Option.some.inj hprev
          subst hbp
          refine ⟨hhash.1, ?_⟩
          rw [hfields.2.2.2]
          rfl
        · exfalso
          have : i < (bc.chain ++ [mined]).length := by
            by_contra hge
            rw [List.getElem?_eq_none (by omega)] at hi
            exact Option.noConfusion hi
          simp at this
          omega

/-! ## Claims C1 and C10: chain validation -/

/-- Claim C1: every chain built in-process by creating the genesis block
and then performing any sequence of `add_transaction` and
`mine_pending_transactions` operations validates; and if afterwards any
hashed field of a block at index ≥ 1 is changed without recomputing that
block's hash, validation fails.  "Changed content" is expressed through
the ideal-hash hypothesis `hne`: the recomputed digest of the tampered
content differs from the digest of the original content (no SHA-256
collision at this pair; in particular the content differs). -/
theorem validate_chain_reachable_and_tamper (H : BlockContent → String) :
    (∀ bc, Reaches H bc → bc.validate_chain H = true) ∧
    (∀ bc (i : Nat) (borig b' : Block), Reaches H bc → 1 ≤ i →
      bc.chain[i]? = some borig → b'.hash = borig.hash →
      H b'.content ≠ H borig.content →
      validateChainList H (bc.chain.set i b') = false) := by
  constructor
  · intro bc hr
    exact (reaches_validate H bc hr).2
  · intro bc i borig b' hr h1 hi hhash hne
    have hval : validateChainList H bc.chain = true := (reaches_validate H bc hr).2
    have hcases := (validate_chain_iff H bc.chain).mp hval
    have hilt : i < bc.chain.length := by
      by_contra hge
      rw [List.getElem?_eq_none (by omega)] at hi
      exact Option.noConfusion hi
    by_contra hset
    rw [Bool.not_eq_false] at hset
    have hcases' := (validate_chain_iff H (bc.chain.set i b')).mp hset
    have hbp : ∃ bp, (bc.chain.set i b')[i - 1]? = some bp := by
      have : i - 1 < (bc.chain.set i b').length := by
        rw [List.length_set]; omega
      exact ⟨_, List.getElem?_eq_getElem this⟩
    obtain ⟨bp, hbp⟩ := hbp
    have hset_i : (bc.chain.set i b')[i]? = some b' :=
      List.getElem?_set_self hilt
    have h2 := hcases' i b' bp h1 hset_i hbp
    have horig := hcases i borig _ h1 hi (List.getElem?_eq_getElem (by omega))
    apply hne
    rw [← h2.1, hhash, horig.1]

/-- Hash instance for the C1 and C3 witnesses: simple enough for kernel
evaluation, while mining succeeds immediately and distinct nonces give
distinct digests. -/
def hashN : BlockContent → String := fun c => "0000" ++ toString c.nonce

/-- Genesis block of the C1 and C3 witnesses. -/
def genW : Block := ⟨0, "g", [], "0", 0, "00000"⟩

/-- Bootstrapped state of the C1 and C3 witnesses. -/
def bootW : Blockchain := ⟨[genW], [], [], [], 1⟩

/-- Second block of the C1 witness. -/
def blk1W : Block := ⟨1, "m", [], "00000", 0, "00000"⟩

/-- Two-block reachable state of the C1 witness. -/
def chainW : Blockchain := ⟨[genW, blk1W], [], [], [], 2⟩

/-- Block 1 of the C1 witness with a tampered nonce and the stale stored
hash. -/
def tamperW : Block := ⟨1, "m", [], "00000", 5, "00000"⟩

/-- Witness for the C1 theorem: a concrete bootstrapped-then-mined
two-block chain validates, and tampering with block 1's nonce while
keeping the stored hash makes validation fail. -/
theorem validate_chain_reachable_and_tamper_witness :
    chainW.validate_chain hashN = true ∧
    validateChainList hashN (chainW.chain.set 1 tamperW) = false := by
  have hreach : Reaches hashN chainW := by
    apply Reaches.mine bootW chainW (fun a _ => a) 0 "m" 0 none blk1W
    · exact Reaches.boot 0 "g" [] [] bootW (by decide)
    · decide
  obtain ⟨hv, ht⟩ := validate_chain_reachable_and_tamper hashN
  exact ⟨hv chainW hreach,
    ht chainW 1 blk1W tamperW hreach (by decide) (by decide) (by decide) (by decide)⟩

/-- Claim C10: `validate_chain` starts its loop at index 1, so a
one-block chain validates no matter what the genesis block stores as its
hash, and for longer chains the result depends on the genesis block only
through its stored `hash` field, so tampering with genesis content while
keeping the stored hash is undetected. -/
theorem validate_chain_ignores_genesis (H : BlockContent → String) :
    (∀ g : Block, validateChainList H [g] = true) ∧
    (∀ (g g' : Block) (rest : List Block), g'.hash = g.hash →
      validateChainList H (g' :: rest) = validateChainList H (g :: rest)) := by
  constructor
  · intro g; rfl
  · intro g g' rest hh
    cases rest with
    | nil => rfl
    | cons b bs =>
      show valAux H g' (b :: bs) = valAux H g (b :: bs)
      unfold valAux
      rw [hh]

/-- Genesis block of the C10 witness whose stored hash is not the
recomputation of its content. -/
def genBadW : Block := ⟨0, "g", [], "0", 3, "NOTAHASH"⟩

/-- Genesis block of the C10 witness with tampered content (nonce and
timestamp changed) but the original stored hash. -/
def genTamperW : Block := ⟨0, "x", [], "0", 9, "00000"⟩

/-- Witness for the C10 theorem: a one-block chain with a wrong stored
genesis hash validates, and replacing the genesis of the two-block
witness chain by a content-tampered genesis with the same stored hash
leaves validation true. -/
theorem validate_chain_ignores_genesis_witness :
    validateChainList hashN [genBadW] = true ∧
    validateChainList hashN (genTamperW :: [blk1W]) = true := by
  obtain ⟨h1, h2⟩ := validate_chain_ignores_genesis hashN
  refine ⟨h1 genBadW, ?_⟩
  rw [h2 genW genTamperW [blk1W] (by decide)]
  decide

/-! ## Reward rounding and bands -/

/-- Round-half-to-even always lands on the floor or the ceiling. -/
theorem pyRoundHalfEven_mem (q : ℚ) :
    pyRoundHalfEven q = ⌊q⌋ ∨ pyRoundHalfEven q = ⌊q⌋ + 1 := by
  unfold pyRoundHalfEven
  dsimp only
  split_ifs <;> simp

/-- An integer lower bound survives round-half-to-even. -/
theorem le_pyRoundHalfEven (a : ℤ) (q : ℚ) (h : (a : ℚ) ≤ q) :
    a ≤ pyRoundHalfEven q := by
  have hfl : a ≤ ⌊q⌋ := Int.le_floor.mpr h
  rcases pyRoundHalfEven_mem q with hm | hm <;> rw [hm] <;> omega

/-- An integer upper bound survives round-half-to-even. -/
theorem pyRoundHalfEven_le (b : ℤ) (q : ℚ) (h : q ≤ (b : ℚ)) :
    pyRoundHalfEven q ≤ b := by
  have hfl : ⌊q⌋ ≤ b := by
    have := Int.floor_mono h
    simpa using this
  unfold pyRoundHalfEven
  dsimp only
  split_ifs with h1 h2 h3
  · exact hfl
  · have hq : (⌊q⌋ : ℚ) < q := by linarith
    have hqb : (⌊q⌋ : ℚ) < (b : ℚ) := lt_of_lt_of_le hq h
    have : ⌊q⌋ < b := by exact_mod_cast hqb
    omega
  · exact hfl
  · have hq : (⌊q⌋ : ℚ) < q := by
      have : (1:ℚ)/2 ≤ q - ⌊q⌋ := not_lt.mp h1
      linarith
    have hqb : (⌊q⌋ : ℚ) < (b : ℚ) := lt_of_lt_of_le hq h
    have : ⌊q⌋ < b := by exact_mod_cast hqb
    omega

/-- `round(x, 1)` maps `[a/10, b/10]` into itself for integers `a ≤ b`,
and the result is an integer number of tenths. -/
theorem pyRound1_band (a b : ℤ) (u : ℚ)
    (hl : (a : ℚ)/10 ≤ u) (hu : u ≤ (b : ℚ)/10) :
    (a : ℚ)/10 ≤ pyRound1 u ∧ pyRound1 u ≤ (b : ℚ)/10 ∧
      ∃ k : ℤ, pyRound1 u = (k : ℚ)/10 := by
  have h1 : (a : ℚ) ≤ u * 10 := by linarith
  have h2 : u * 10 ≤ (b : ℚ) := by linarith
  have hlo := le_pyRoundHalfEven a (u * 10) h1
  have hhi := pyRoundHalfEven_le b (u * 10) h2
  unfold pyRound1
  refine ⟨?_, ?_, ⟨pyRoundHalfEven (u * 10), rfl⟩⟩
  · have : (a : ℚ) ≤ (pyRoundHalfEven (u * 10) : ℚ) := by exact_mod_cast hlo
    linarith
  · have : (pyRoundHalfEven (u * 10) : ℚ) ≤ (b : ℚ) := by exact_mod_cast hhi
    linarith

/-- The reward always lies in one of the four bands and is an integer
number of tenths, provided `uniform a b` respects its bounds. -/
theorem calculate_mining_reward_band (uniform : ℚ → ℚ → ℚ) (rand : ℚ)
    (hU : ∀ a b : ℚ, a ≤ b → a ≤ uniform a b ∧ uniform a b ≤ b) :
    ((1:ℚ)/10 ≤ calculate_mining_reward uniform rand ∧ calculate_mining_reward uniform rand ≤ 5/10 ∨
     (6:ℚ)/10 ≤ calculate_mining_reward uniform rand ∧ calculate_mining_reward uniform rand ≤ 7/10 ∨
     (8:ℚ)/10 ≤ calculate_mining_reward uniform rand ∧ calculate_mining_reward uniform rand ≤ 9/10 ∨
     (10:ℚ)/10 ≤ calculate_mining_reward uniform rand ∧ calculate_mining_reward uniform rand ≤ 14/10) ∧
    ∃ k : ℤ, calculate_mining_reward uniform rand = (k : ℚ)/10 := by
  unfold calculate_mining_reward
  split
  · obtain ⟨hl, hu⟩ := hU (1/10) (5/10) (by norm_num)
    have hband := pyRound1_band 1 5 (uniform (1/10) (5/10))
      (by push_cast; linarith) (by push_cast; linarith)
    push_cast at hband
    exact ⟨Or.inl ⟨hband.1, hband.2.1⟩, hband.2.2⟩
  · split
    · obtain ⟨hl, hu⟩ := hU (6/10) (7/10) (by norm_num)
      have hband := pyRound1_band 6 7 (uniform (6/10) (7/10))
        (by push_cast; linarith) (by push_cast; linarith)
      push_cast at hband
      exact ⟨Or.inr (Or.inl ⟨hband.1, hband.2.1⟩), hband.2.2⟩
    · split
      · obtain ⟨hl, hu⟩ := hU (8/10) (9/10) (by norm_num)
        have hband := pyRound1_band 8 9 (uniform (8/10) (9/10))
          (by push_cast; linarith) (by push_cast; linarith)
        push_cast at hband
        exact ⟨Or.inr (Or.inr (Or.inl ⟨hband.1, hband.2.1⟩)), hband.2.2⟩
      · obtain ⟨hl, hu⟩ := hU 1 (14/10) (by norm_num)
        have hband := pyRound1_band 10 14 (uniform 1 (14/10))
          (by push_cast; linarith) (by push_cast; linarith)
        push_cast at hband
        exact ⟨Or.inr (Or.inr (Or.inr ⟨hband.1, hband.2.1⟩)), hband.2.2⟩

/-! ## Claim C3: mine_pending_transactions -/

/-- The four reward bands of the spec, in tenths. -/
def inRewardBands (r : ℚ) : Prop :=
  (1/10 ≤ r ∧ r ≤ 5/10) ∨ (6/10 ≤ r ∧ r ≤ 7/10) ∨
  (8/10 ≤ r ∧ r ≤ 9/10) ∨ (10/10 ≤ r ∧ r ≤ 14/10)

/-- Claim C3: `mine_pending_transactions` on a non-empty chain builds the
new block from a snapshot of the pending pool (plus, when a miner
address is supplied, one reward transaction from "SYSTEM" whose amount
lies in the four bands and is a whole number of tenths), with
previous_hash the chain tip's stored hash and index the old chain
length; it appends the mined block, empties the pool, persists, and an
empty pool with no miner address yields a block with zero
transactions. -/
theorem mine_pending_transactions_spec (H : BlockContent → String)
    (uniform : ℚ → ℚ → ℚ) (fuel : Nat) (now : String) (rand : ℚ)
    (miner_address : Option String) (bc : Blockchain) (blk : Block)
    (bc' : Blockchain)
    (hU : ∀ a b : ℚ, a ≤ b → a ≤ uniform a b ∧ uniform a b ≤ b)
    (h : bc.mine_pending_transactions H uniform fuel now rand miner_address =
      some (blk, bc')) :
    (∃ prev, bc.chain.getLast? = some prev ∧ blk.previous_hash = prev.hash) ∧
    blk.index = (bc.chain.length : ℤ) ∧
    blk.transactions = bc.pending_transactions ++
      (if pyTruthy miner_address then
        [{ sender := "SYSTEM", receiver := miner_address.getD "",
           amount := calculate_mining_reward uniform rand }]
       else []) ∧
    (pyTruthy miner_address = true →
      inRewardBands (calculate_mining_reward uniform rand) ∧
      ∃ k : ℤ, calculate_mining_reward uniform rand = (k : ℚ)/10) ∧
    bc'.chain = bc.chain ++ [blk] ∧
    bc'.pending_transactions = [] ∧
    bc'.saves = bc.saves + 1 ∧
    (bc.pending_transactions = [] ∧ pyTruthy miner_address = false →
      blk.transactions = []) := by
  unfold Blockchain.mine_pending_transactions at h
  cases hlast : bc.chain.getLast? with
  | none => rw [hlast] at h; simp at h
  | some prev =>
    rw [hlast] at h
    rw [Option.map_eq_some'] at h
    obtain ⟨mined, hmine, heq⟩ := h
    have hblk : mined = blk := congrArg Prod.fst heq
    have hbc' :
        ({ bc with
            chain := bc.chain ++ [mined],
            pending_transactions := [],
            saves := bc.saves + 1 } : Blockchain) = bc' :=
      congrArg Prod.snd heq
    rw [hblk] at hmine hbc'
    have hfields := mine_block_fields H fuel _ blk hmine
    obtain ⟨hidx, hts, htxs, hprev⟩ := hfields
    constructor
    · exact ⟨prev, rfl, by rw [hprev]; rfl⟩
    constructor
    · rw [hidx]; rfl
    constructor
    · rw [htxs]
      show (if pyTruthy miner_address = true then
          bc.pending_transactions ++ [_] else bc.pending_transactions) = _
      by_cases hm : pyTruthy miner_address = true
      · simp [hm]
      · simp [hm]
    constructor
    · intro hm
      have hband := calculate_mining_reward_band uniform rand hU
      exact ⟨hband.1, hband.2⟩
    constructor
    · rw [← hbc']
    constructor
    · rw [← hbc']
    constructor
    · rw [← hbc']
    · intro ⟨hp, hm⟩
      rw [htxs]
      show (if pyTruthy miner_address = true then
          bc.pending_transactions ++ [_] else bc.pending_transactions) = _
      rw [hm]
      simp [hp]

/-- Witness for the C3 theorem on a concrete bootstrapped state: mining
with an empty pool and no miner address yields a block with zero
transactions.  (Rational arithmetic of the reward path does not reduce
in the kernel, so the no-reward branch is exercised.) -/
theorem mine_pending_transactions_spec_witness :
    blk1W.index = ((1 : Nat) : ℤ) ∧ chainW.chain = bootW.chain ++ [blk1W] ∧
    chainW.pending_transactions = [] ∧ chainW.saves = bootW.saves + 1 ∧
    blk1W.transactions = [] := by
  have h : bootW.mine_pending_transactions hashN (fun a _ => a) 0 "m" 0
      none = some (blk1W, chainW) := by decide
  obtain ⟨-, hidx, -, -, hchain, hpend, hsave, hempty⟩ :=
    mine_pending_transactions_spec hashN (fun a _ => a) 0 "m" 0 none
      bootW blk1W chainW (fun a b hab => ⟨le_refl a, hab⟩) h
  exact ⟨by simpa using hidx, hchain, hpend, hsave, hempty ⟨rfl, rfl⟩⟩

/-! ## Claims C7 and C8: balances and persistence -/

/-- All transactions sealed in blocks of the chain, in order. -/
def chainTxs (bc : Blockchain) : List Transaction :=
  bc.chain.foldr (fun block acc => block.transactions ++ acc) []

/-- Net effect of one transaction on an address's balance. -/
def txDelta (address : String) (tx : Transaction) : ℚ :=
  (if tx.receiver == address then tx.amount else 0) -
    (if tx.sender == address then tx.amount else 0)

/-- Per-transaction deltas sum to received minus sent. -/
theorem sum_txDelta (address : String) (txs : List Transaction) :
    (txs.map (txDelta address)).sum =
      ((txs.filter (fun tx => tx.receiver == address)).map Transaction.amount).sum -
      ((txs.filter (fun tx => tx.sender == address)).map Transaction.amount).sum := by
  induction txs with
  | nil => simp
  | cons tx rest ih =>
    simp only [List.map_cons, List.sum_cons, List.filter_cons]
    by_cases hr : (tx.receiver == address) = true <;>
      by_cases hs : (tx.sender == address) = true <;>
        simp [hr, hs, txDelta, ih] <;> ring

/-- The inner fold of `compute_balance` adds the deltas of one block's
transactions. -/
theorem foldl_balance (address : String) (txs : List Transaction) :
    ∀ e : ℚ,
      txs.foldl
        (fun balance tx =>
          let balance := if tx.receiver == address then balance + tx.amount else balance
          if tx.sender == address then balance - tx.amount else balance)
        e
      = e + (txs.map (txDelta address)).sum := by
  induction txs with
  | nil => intro e; simp
  | cons tx rest ih =>
    intro e
    simp only [List.foldl_cons, List.map_cons, List.sum_cons]
    rw [ih]
    by_cases hr : (tx.receiver == address) = true <;>
      by_cases hs : (tx.sender == address) = true <;>
        simp [hr, hs, txDelta] <;> ring

/-- The outer fold of `compute_balance` adds the deltas of every sealed
transaction. -/
theorem foldl_chain_balance (address : String) (chain : List Block) :
    ∀ e : ℚ,
      chain.foldl
        (fun balance block =>
          block.transactions.foldl
            (fun balance tx =>
              let balance := if tx.receiver == address then balance + tx.amount else balance
              if tx.sender == address then balance - tx.amount else balance)
            balance)
        e
      = e + ((chain.foldr (fun block acc => block.transactions ++ acc) []).map
          (txDelta address)).sum := by
  induction chain with
  | nil => intro e; simp
  | cons block rest ih =>
    intro e
    simp only [List.foldl_cons, List.foldr_cons]
    rw [foldl_balance, ih, List.map_append, List.sum_append]
    ring

/-- Claim C7: `compute_balance` equals total received minus total sent
over all sealed transactions, ignores the pending pool, and is zero for
addresses that never appear. -/
theorem compute_balance_spec (bc : Blockchain) (address : String) :
    bc.compute_balance address =
      (((chainTxs bc).filter (fun tx => tx.receiver == address)).map Transaction.amount).sum -
      (((chainTxs bc).filter (fun tx => tx.sender == address)).map Transaction.amount).sum ∧
    (∀ p' : List Transaction,
      ({ bc with pending_transactions := p' } : Blockchain).compute_balance address =
        bc.compute_balance address) ∧
    ((∀ tx ∈ chainTxs bc, tx.sender ≠ address ∧ tx.receiver ≠ address) →
      bc.compute_balance address = 0) := by
  have hmain : bc.compute_balance address =
      ((chainTxs bc).map (txDelta address)).sum := by
    unfold Blockchain.compute_balance
    rw [foldl_chain_balance]
    simp [chainTxs]
  refine ⟨?_, fun p' => rfl, ?_⟩
  · rw [hmain, sum_txDelta]
  · intro hall
    rw [hmain]
    have : ∀ tx ∈ chainTxs bc, txDelta address tx = 0 := by
      intro tx htx
      obtain ⟨hs, hr⟩ := hall tx htx
      simp [txDelta, hs, hr]
    calc ((chainTxs bc).map (txDelta address)).sum
        = ((chainTxs bc).map (fun _ => (0:ℚ))).sum := by
          rw [List.map_congr_left this]
      _ = 0 := by simp

/-- Transaction of the C7 witness. -/
def txBalW : Transaction := { sender := "A", receiver := "B", amount := 7 }

/-- Single-block state of the C7 witness. -/
def bcBalW : Blockchain :=
  ⟨[⟨0, "g", [txBalW], "0", 0, "00000"⟩], [txBalW], [], [], 1⟩

/-- Witness for the C7 theorem: on a one-block chain holding one 7-coin
transfer from A to B, a never-mentioned address has balance 0 (and the
pending pool is ignored). -/
theorem compute_balance_spec_witness :
    bcBalW.compute_balance "Z" = 0 ∧
    ({ bcBalW with pending_transactions := [] } : Blockchain).compute_balance "B" =
      bcBalW.compute_balance "B" := by
  obtain ⟨-, -, hzero⟩ := compute_balance_spec bcBalW "Z"
  obtain ⟨-, hpend, -⟩ := compute_balance_spec bcBalW "B"
  refine ⟨hzero ?_, hpend []⟩
  intro tx htx
  have : tx = txBalW := by
    simpa [chainTxs, bcBalW] using htx
  subst this
  refine ⟨by decide, by decide⟩

/-- A block survives the constructor-then-overwrite restoration of
`load_from_file` unchanged. -/
theorem restoreBlock_id (H : BlockContent → String) (block_data : Block) :
    restoreBlock H block_data = block_data := rfl

/-- Claim C8: loading the snapshot produced by `save_to_file` restores
the identical chain (all fields, the stored hash verbatim without
recomputation) and the identical pending pool; and for any snapshot the
restored hashes equal the stored ones whatever the hash function. -/
theorem save_load_roundtrip (H : BlockContent → String)
    (reinit_dev_users public_keys : List (String × String)) (saves : Nat)
    (bc : Blockchain) (now : String) (snap : SnapshotData) :
    (loadFromSnapshot H (bc.save_to_file now) reinit_dev_users public_keys
        saves).chain = bc.chain ∧
    (loadFromSnapshot H (bc.save_to_file now) reinit_dev_users public_keys
        saves).pending_transactions = bc.pending_transactions ∧
    (loadFromSnapshot H snap reinit_dev_users public_keys saves).chain.map
        Block.hash = snap.chain.map Block.hash := by
  have hid : restoreBlock H = id := funext (restoreBlock_id H)
  refine ⟨?_, rfl, ?_⟩
  · show (bc.chain.map (restoreBlock H)) = bc.chain
    rw [hid, List.map_id]
  · show ((snap.chain.map (restoreBlock H)).map Block.hash) = _
    rw [hid, List.map_id]

/-! ## Claim C2: transaction admission -/

/-- Claim-language reading of `sigRejects`. -/
theorem sigRejects_iff (naclVerify : Bytes → Bytes → String → Bool)
    (sha256hex : String → String) (pyStr : ℚ → String) (now : String)
    (bc : Blockchain) (tx : Transaction) :
    sigRejects naclVerify sha256hex pyStr now bc tx = true ↔
      pyTruthy tx.signature = true ∧
      ∃ sender_username public_key,
        resolveSenderUsername bc.dev_users tx.sender = some sender_username ∧
        sender_username ≠ "" ∧
        bc.public_keys.lookup sender_username = some public_key ∧
        verify_transaction_signature naclVerify sha256hex pyStr tx.sender
          tx.receiver tx.amount (tx.signature.getD "") public_key now
          (some (pyOrElse tx.timestamp now)) = false := by
  unfold sigRejects
  cases hres : resolveSenderUsername bc.dev_users tx.sender with
  | none => simp [hres]
  | some u =>
    cases hkey : bc.public_keys.lookup u with
    | none => simp [hkey]
    | some pk => simp [hkey, and_assoc]

/-- Claim-language reading of `zkRejects`. -/
theorem zkRejects_iff (sha256hex : String → String) (pyStr : ℚ → String)
    (tx : Transaction) :
    zkRejects sha256hex pyStr tx = true ↔
      ∃ proof, tx.zk_proof = some proof ∧ proof.truthy = true ∧
        verify_zk_proof sha256hex pyStr proof tx.sender tx.receiver
          tx.amount = false := by
  unfold zkRejects
  cases hzk : tx.zk_proof with
  | none => simp
  | some proof => simp

/-- Claim C2 as amended: `add_transaction` rejects with the
invalid-signature error exactly when the signature is present (truthy),
the sender resolves through the dev-user registry to a non-empty name
with a registered public key, and verification fails; it rejects with the
invalid-proof error exactly when the signature check did not already
reject and a present (truthy) proof fails verification; a present
signature whose sender has no resolvable identity or no registered key
never causes a signature rejection; and every successful admission
appends the transaction to the pending pool and triggers exactly one
persistence snapshot, leaving the chain untouched. -/
theorem add_transaction_admission_spec (naclVerify : Bytes → Bytes → String → Bool)
    (sha256hex : String → String) (pyStr : ℚ → String) (now : String)
    (bc : Blockchain) (tx : Transaction) :
    (bc.add_transaction naclVerify sha256hex pyStr now tx =
        .error "Invalid transaction signature" ↔
      (pyTruthy tx.signature = true ∧
       ∃ sender_username public_key,
         resolveSenderUsername bc.dev_users tx.sender = some sender_username ∧
         sender_username ≠ "" ∧
         bc.public_keys.lookup sender_username = some public_key ∧
         verify_transaction_signature naclVerify sha256hex pyStr tx.sender
           tx.receiver tx.amount (tx.signature.getD "") public_key now
           (some (pyOrElse tx.timestamp now)) = false)) ∧
    (bc.add_transaction naclVerify sha256hex pyStr now tx =
        .error "Invalid zero-knowledge proof" ↔
      (sigRejects naclVerify sha256hex pyStr now bc tx = false ∧
       ∃ proof, tx.zk_proof = some proof ∧ proof.truthy = true ∧
         verify_zk_proof sha256hex pyStr proof tx.sender tx.receiver
           tx.amount = false)) ∧
    (pyTruthy tx.signature = true →
      (resolveSenderUsername bc.dev_users tx.sender = none ∨
       ∃ sender_username,
         resolveSenderUsername bc.dev_users tx.sender = some sender_username ∧
         bc.public_keys.lookup sender_username = none) →
      bc.add_transaction naclVerify sha256hex pyStr now tx ≠
        .error "Invalid transaction signature") ∧
    (∀ bc', bc.add_transaction naclVerify sha256hex pyStr now tx = .ok bc' →
      bc'.pending_transactions = bc.pending_transactions ++ [tx] ∧
      bc'.saves = bc.saves + 1 ∧ bc'.chain = bc.chain) := by
  rw [add_transaction_eq]
  by_cases hs : sigRejects naclVerify sha256hex pyStr now bc tx = true
  · rw [if_pos hs]
    refine ⟨?_, ?_, ?_, ?_⟩
    · exact ⟨fun _ => (sigRejects_iff naclVerify sha256hex pyStr now bc tx).mp hs,
        fun _ => rfl⟩
    · constructor
      · intro h
        exact absurd (Except.error.inj h) (by decide)
      · rintro ⟨hfalse, -⟩
        rw [hs] at hfalse
        exact Bool.noConfusion hfalse
    · intro htr hnone
      exfalso
      obtain ⟨-, u, pk, hres, -, hkey, -⟩ :=
        (sigRejects_iff naclVerify sha256hex pyStr now bc tx).mp hs
      rcases hnone with h | ⟨u', hres', hkey'⟩
      · rw [hres] at h; exact Option.noConfusion h
      · rw [hres] at hres'
        cases hres'
        rw [hkey] at hkey'
        exact Option.noConfusion hkey'
    · intro bc' hok
      exact Except.noConfusion hok
  · rw [Bool.not_eq_true] at hs
    by_cases hz : zkRejects sha256hex pyStr tx = true
    · rw [if_neg (by rw [hs]; simp), if_pos hz]
      refine ⟨?_, ?_, ?_, ?_⟩
      · constructor
        · intro h
          exact absurd (Except.error.inj h) (by decide)
        · rintro ⟨htr, hcond⟩
          have hst : sigRejects naclVerify sha256hex pyStr now bc tx = true :=
            (sigRejects_iff naclVerify sha256hex pyStr now bc tx).mpr ⟨htr, hcond⟩
          rw [hs] at hst
          exact Bool.noConfusion hst
      · exact ⟨fun _ => ⟨hs, (zkRejects_iff sha256hex pyStr tx).mp hz⟩,
          fun _ => rfl⟩
      · intro _ _ h
        exact absurd (Except.error.inj h) (by decide)
      · intro bc' hok
        exact Except.noConfusion hok
    · rw [Bool.not_eq_true] at hz
      rw [if_neg (by rw [hs]; simp), if_neg (by rw [hz]; simp)]
      refine ⟨?_, ?_, ?_, ?_⟩
      · constructor
        · intro h
          exact Except.noConfusion h
        · rintro ⟨htr, hcond⟩
          have hst : sigRejects naclVerify sha256hex pyStr now bc tx = true :=
            (sigRejects_iff naclVerify sha256hex pyStr now bc tx).mpr ⟨htr, hcond⟩
          rw [hs] at hst
          exact Bool.noConfusion hst
      · constructor
        · intro h
          exact Except.noConfusion h
        · rintro ⟨-, hcond⟩
          have hzt : zkRejects sha256hex pyStr tx = true :=
            (zkRejects_iff sha256hex pyStr tx).mpr hcond
          rw [hz] at hzt
          exact Bool.noConfusion hzt
      · intro _ _ h
        exact Except.noConfusion h
      · intro bc' hok
        rw [← Except.ok.inj hok]
        exact ⟨rfl, rfl, rfl⟩

deriving instance DecidableEq for Except

/-- Identity stand-in for SHA-256 in the C2 scenario (any function
works; only equality of recomputed strings matters). -/
def sha256W : String → String := fun s => s

/-- Constant float rendering for the C2 scenario. -/
def pyStrW : ℚ → String := fun _ => "F"

/-- Ed25519 verification that always fails, for the C2 scenario. -/
def nvFalseW : Bytes → Bytes → String → Bool := fun _ _ _ => false

/-- A zk-proof dictionary whose verification fails (its message hash
does not match). -/
def zkBadW : ZKProof := ⟨some "c", some "c", some "c", some "c", false⟩

/-- Transaction carrying both a failing signature and a failing proof. -/
def txBadW : Transaction :=
  { sender := "cody", receiver := "bob", amount := 5,
    signature := some "ab", zk_proof := some zkBadW }

/-- State whose registry resolves "cody" to a registered public key. -/
def bcSigW : Blockchain := ⟨[genW], [], [("AD", "cody")], [("cody", "PK")], 1⟩

/-- Counterexample to claim C2 as stated: its clause "rejects with an
invalid-proof error exactly when tx.zk_proof is present, the proof
module is available, and proof verification returns false" fails on a
transaction that also carries a failing signature — the proof is present
and fails verification, yet the rejection raised is the
invalid-signature one, because the signature check runs first. -/
theorem add_transaction_zk_clause_counterexample :
    (pyTruthyZk txBadW.zk_proof = true ∧
     verify_zk_proof sha256W pyStrW zkBadW txBadW.sender txBadW.receiver
       txBadW.amount = false) ∧
    bcSigW.add_transaction nvFalseW sha256W pyStrW "N" txBadW ≠
      Except.error "Invalid zero-knowledge proof" := by
  refine ⟨⟨by decide, by decide⟩, by decide⟩

/-- Witness for the amended C2 theorem: the concrete transaction above
is rejected with the invalid-signature error. -/
theorem add_transaction_admission_spec_witness :
    bcSigW.add_transaction nvFalseW sha256W pyStrW "N" txBadW =
      Except.error "Invalid transaction signature" := by
  obtain ⟨h1, -, -, -⟩ :=
    add_transaction_admission_spec nvFalseW sha256W pyStrW "N" bcSigW txBadW
  exact h1.mpr ⟨by decide, "cody", "PK", by decide, by decide, by decide, by decide⟩

/-! ## Claim C5: sign/verify round trip -/

/-- Hex digit characters are not whitespace and decode to their value. -/
theorem hexDigitChar_facts : ∀ k < 16,
    isPySpace (hexDigitChar k) = false ∧ hexVal (hexDigitChar k) = some k := by
  decide

/-- `bytes.fromhex` inverts `bytes.hex()` on well-formed byte lists. -/
theorem pyFromHex_bytesToHex : ∀ bs : Bytes, (∀ b ∈ bs, b < 256) →
    pyFromHex (bytesToHex bs) = some bs := by
  intro bs
  induction bs with
  | nil => intro _; rfl
  | cons b rest ih =>
    intro h
    have hb : b < 256 := h b (by simp)
    have h1 : b / 16 < 16 := by omega
    have h2 : b % 16 < 16 := by omega
    show pyFromHexAux (hexDigitChar (b / 16) :: hexDigitChar (b % 16) :: _) = _
    unfold pyFromHexAux
    rw [(hexDigitChar_facts _ h1).1]
    simp only [Bool.false_eq_true, if_false]
    rw [(hexDigitChar_facts _ h1).2, (hexDigitChar_facts _ h2).2]
    have hrest : pyFromHexAux
        (rest.foldr (fun b acc => hexDigitChar (b / 16) :: hexDigitChar (b % 16) :: acc) [])
        = some rest := ih (fun x hx => h x (by simp [hx]))
    rw [hrest]
    have hval : b / 16 * 16 + b % 16 = b := by omega
    simp [hval]

/-- Claim C5: over the crypto.py wrappers, verification accepts the
signature produced by signing under the paired public key and rejects it
under every other key, given the Ed25519 primitive's correctness and
soundness for the keypair (stated as hypotheses `hcorrect`, `hsound`)
and well-formed signature bytes (`hwf`); and `sign_message` and
`verify_signature` apply the identical hex-versus-UTF-8 disambiguation
of the message, decoding as hex exactly when the message has even length
and only hex digits. -/
theorem sign_verify_roundtrip_spec (naclSign : Bytes → String → Bytes)
    (naclVerify : Bytes → Bytes → String → Bool) (sk pk : String)
    (hwf : ∀ mb : Bytes, ∀ b ∈ naclSign mb sk, b < 256)
    (hcorrect : ∀ mb : Bytes, naclVerify mb (naclSign mb sk) pk = true)
    (hsound : ∀ (mb : Bytes) (pk' : String), pk' ≠ pk →
      naclVerify mb (naclSign mb sk) pk' = false) :
    ∀ m : String,
      verify_signature naclVerify m (sign_message naclSign m sk) pk = true ∧
      (∀ pk', pk' ≠ pk →
        verify_signature naclVerify m (sign_message naclSign m sk) pk' = false) ∧
      verifyMessageBytes m = signMessageBytes m ∧
      (isHexLike m = true → signMessageBytes m = (pyFromHex m).getD []) ∧
      (isHexLike m = false → signMessageBytes m = utf8Bytes m) := by
  intro m
  have hdec : pyFromHex (sign_message naclSign m sk) =
      some (naclSign (signMessageBytes m) sk) :=
    pyFromHex_bytesToHex _ (hwf _)
  refine ⟨?_, ?_, rfl, ?_, ?_⟩
  · unfold verify_signature
    rw [hdec]
    exact hcorrect _
  · intro pk' hne
    unfold verify_signature
    rw [hdec]
    exact hsound _ pk' hne
  · intro hhex
    simp [signMessageBytes, hhex]
  · intro hhex
    simp [signMessageBytes, hhex]

/-- Signing primitive of the C5 and C6 witnesses: a fixed well-formed
byte list. -/
def nsW : Bytes → String → Bytes := fun _ _ => [7]

/-- Verification primitive of the C5 and C6 witnesses: accepts exactly
the key "PK". -/
def nvW : Bytes → Bytes → String → Bool := fun _ _ k => k == "PK"

/-- Witness for the C5 theorem at concrete primitives, keys and a
hex-like message. -/
theorem sign_verify_roundtrip_spec_witness :
    verify_signature nvW "ab" (sign_message nsW "ab" "SK") "PK" = true ∧
    verify_signature nvW "ab" (sign_message nsW "ab" "SK") "ZZ" = false := by
  obtain ⟨h1, h2, -, -, -⟩ :=
    sign_verify_roundtrip_spec nsW nvW "SK" "PK"
      (by intro mb b hb; simp [nsW] at hb; omega) (fun _ => rfl)
      (fun mb pk' h => by unfold nvW; exact beq_eq_false_iff_ne.mpr h) "ab"
  exact ⟨h1, h2 "ZZ" (by decide)⟩

/-! ## Claim C6: canonical transaction message -/

/-- Claim C6: `sign_transaction` builds the canonical message
`"{sender}:{receiver}:{amount_str}:{timestamp}"` (whole-number amounts
rendered as `"<int>.0"`, others via the default decimal form), SHA-256
hashes it and signs the hex digest rather than the raw message;
`verify_transaction_signature` reconstructs the identical message and
digest before calling `verify_signature`, so that, given the Ed25519
primitive's correctness for the keypair, verification accepts the
signature just produced. -/
theorem sign_transaction_canonical_spec (naclSign : Bytes → String → Bytes)
    (naclVerify : Bytes → Bytes → String → Bool)
    (sha256hex : String → String) (pyStr : ℚ → String)
    (sender receiver : String) (amount : ℚ) (sk sig pk : String)
    (now : String) (ts : Option String)
    (hwf : ∀ mb : Bytes, ∀ b ∈ naclSign mb sk, b < 256)
    (hcorrect : ∀ mb : Bytes, naclVerify mb (naclSign mb sk) pk = true) :
    sign_transaction naclSign sha256hex pyStr sender receiver amount sk now ts =
      sign_message naclSign
        (sha256hex (sender ++ ":" ++ receiver ++ ":" ++
          (if amount.den = 1 then toString amount.num ++ ".0" else pyStr amount) ++
          ":" ++ ts.getD now)) sk ∧
    verify_transaction_signature naclVerify sha256hex pyStr sender receiver
        amount sig pk now ts =
      verify_signature naclVerify
        (sha256hex (sender ++ ":" ++ receiver ++ ":" ++
          (if amount.den = 1 then toString amount.num ++ ".0" else pyStr amount) ++
          ":" ++ ts.getD now)) sig pk ∧
    (amount.den = 1 → amountStr pyStr amount = toString amount.num ++ ".0") ∧
    (amount.den ≠ 1 → amountStr pyStr amount = pyStr amount) ∧
    verify_transaction_signature naclVerify sha256hex pyStr sender receiver
      amount
      (sign_transaction naclSign sha256hex pyStr sender receiver amount sk now ts)
      pk now ts = true := by
  refine ⟨rfl, rfl, ?_, ?_, ?_⟩
  · intro h; simp [amountStr, h]
  · intro h; simp [amountStr, h]
  · show verify_signature naclVerify _
      (sign_message naclSign
        (sha256hex (txMessage pyStr sender receiver amount (ts.getD now))) sk)
      pk = true
    unfold verify_signature sign_message
    rw [pyFromHex_bytesToHex _ (hwf _)]
    exact hcorrect _

/-- Witness for the C6 theorem at concrete primitives and inputs. -/
theorem sign_transaction_canonical_spec_witness :
    verify_transaction_signature nvW sha256W pyStrW "A" "B" 5
      (sign_transaction nsW sha256W pyStrW "A" "B" 5 "SK" "T" none)
      "PK" "T" none = true := by
  obtain ⟨-, -, -, -, h5⟩ :=
    sign_transaction_canonical_spec nsW nvW sha256W pyStrW "A" "B" 5 "SK"
      "xx" "PK" "T" none
      (by intro mb b hb; simp [nsW] at hb; omega) (fun _ => rfl)
  exact h5

/-! ## Claim C9: zero-knowledge proof verification -/

/-- Truthiness of an optional string unpacked. -/
theorem pyTruthy_iff (o : Option String) :
    pyTruthy o = true ↔ ∃ s, o = some s ∧ s ≠ "" := by
  cases o with
  | none => simp [pyTruthy]
  | some s => simp [pyTruthy]

/-- Claim C9: `verify_zk_proof` returns true exactly when the four proof
fields are present and non-empty, the message hash and challenge match
their recomputations, and the response is valid hex decoding to exactly
32 bytes; and — since nothing binds the response to a private key — any
32 arbitrary bytes yield an accepted proof when paired with matching
commitment, challenge and message hash (assuming only that SHA-256
digests are non-empty strings). -/
theorem verify_zk_proof_spec (sha256hex : String → String) (pyStr : ℚ → String)
    (proof : ZKProof) (sender receiver : String) (amount : ℚ) :
    (verify_zk_proof sha256hex pyStr proof sender receiver amount = true ↔
      ∃ c ch resp mh,
        proof.commitment = some c ∧ c ≠ "" ∧
        proof.challenge = some ch ∧ ch ≠ "" ∧
        proof.response = some resp ∧ resp ≠ "" ∧
        proof.message_hash = some mh ∧ mh ≠ "" ∧
        mh = sha256hex (sender ++ ":" ++ receiver ++ ":" ++ pyStr amount) ∧
        ch = sha256hex (c ++ ":" ++ mh) ∧
        ∃ bs, pyFromHex resp = some bs ∧ bs.length = 32) ∧
    ((∀ s, sha256hex s ≠ "") →
      ∀ (resp : String) (bs : Bytes) (c : String),
        pyFromHex resp = some bs → bs.length = 32 → resp ≠ "" → c ≠ "" →
        verify_zk_proof sha256hex pyStr
          ⟨some c,
           some (sha256hex (c ++ ":" ++
             sha256hex (sender ++ ":" ++ receiver ++ ":" ++ pyStr amount))),
           some resp,
           some (sha256hex (sender ++ ":" ++ receiver ++ ":" ++ pyStr amount)),
           false⟩ sender receiver amount = true) := by
  constructor
  · constructor
    · intro hv
      simp only [verify_zk_proof] at hv
      by_cases hg : (pyTruthy proof.commitment && pyTruthy proof.challenge &&
          pyTruthy proof.response && pyTruthy proof.message_hash) = true
      · rw [if_neg (by rw [hg]; simp)] at hv
        rw [Bool.and_eq_true, Bool.and_eq_true, Bool.and_eq_true] at hg
        obtain ⟨⟨⟨hc, hch⟩, hresp⟩, hmh⟩ := hg
        obtain ⟨c, hcs, hcne⟩ := (pyTruthy_iff _).mp hc
        obtain ⟨ch, hchs, hchne⟩ := (pyTruthy_iff _).mp hch
        obtain ⟨resp, hrs, hrne⟩ := (pyTruthy_iff _).mp hresp
        obtain ⟨mh, hmhs, hmhne⟩ := (pyTruthy_iff _).mp hmh
        rw [hcs, hchs, hrs, hmhs] at hv
        simp only [Option.getD_some] at hv
        by_cases h1 : (mh == sha256hex (sender ++ ":" ++ receiver ++ ":" ++ pyStr amount)) = true
        · rw [if_neg (by rw [h1]; simp)] at hv
          by_cases h2 : (ch == sha256hex (c ++ ":" ++ mh)) = true
          · rw [if_neg (by rw [h2]; simp)] at hv
            cases hdec : pyFromHex resp with
            | none => rw [hdec] at hv; simp at hv
            | some bs =>
              rw [hdec] at hv
              refine ⟨c, ch, resp, mh, hcs, hcne, hchs, hchne, hrs, hrne,
                hmhs, hmhne, beq_iff_eq.mp h1, beq_iff_eq.mp h2, bs, hdec, ?_⟩
              simpa using hv
          · rw [Bool.not_eq_true] at h2
            rw [if_pos (by rw [h2]; rfl)] at hv
            exact absurd hv (by simp)
        · rw [Bool.not_eq_true] at h1
          rw [if_pos (by rw [h1]; rfl)] at hv
          exact absurd hv (by simp)
      · rw [Bool.not_eq_true] at hg
        rw [if_pos (by rw [hg]; rfl)] at hv
        exact absurd hv (by simp)
    · rintro ⟨c, ch, resp, mh, hcs, hcne, hchs, hchne, hrs, hrne, hmhs, hmhne,
        hmh_eq, hch_eq, bs, hdec, hlen⟩
      simp only [verify_zk_proof]
      rw [hcs, hchs, hrs, hmhs]
      simp only [Option.getD_some]
      have g : (pyTruthy (some c) && pyTruthy (some ch) && pyTruthy (some resp) &&
          pyTruthy (some mh)) = true := by
        simp [pyTruthy, hcne, hchne, hrne, hmhne]
      rw [if_neg (by rw [g]; simp)]
      rw [if_neg (by rw [hmh_eq]; simp)]
      rw [if_neg (by rw [hch_eq]; simp)]
      rw [hdec]
      simp [hlen]
  · intro hne resp bs c hdec hlen hrne hcne
    simp only [verify_zk_proof]
    have hmhne := hne (sender ++ ":" ++ receiver ++ ":" ++ pyStr amount)
    have hchne := hne (c ++ ":" ++
      sha256hex (sender ++ ":" ++ receiver ++ ":" ++ pyStr amount))
    rw [if_neg (by simp [pyTruthy, hcne, hrne, hmhne, hchne])]
    rw [if_neg (by simp)]
    rw [if_neg (by simp)]
    simp only [Option.getD_some]
    rw [hdec]
    simp [hlen]

/-- Non-emptiness stand-in for SHA-256 used by the C9 witness. -/
def shaNeW : String → String := fun s => "h" ++ s

/-- A 32-byte response assembled with no private key: 64 zero hex
characters. -/
def respW : String := bytesToHex (List.replicate 32 0)

/-- Witness for the C9 theorem: a keyless proof with a 32-zero-byte
response verifies against concrete sender, receiver and amount. -/
theorem verify_zk_proof_spec_witness :
    verify_zk_proof shaNeW pyStrW
      ⟨some "c",
       some (shaNeW ("c" ++ ":" ++ shaNeW ("A" ++ ":" ++ "B" ++ ":" ++ pyStrW 5))),
       some respW,
       some (shaNeW ("A" ++ ":" ++ "B" ++ ":" ++ pyStrW 5)),
       false⟩ "A" "B" 5 = true := by
  obtain ⟨-, hforge⟩ := verify_zk_proof_spec shaNeW pyStrW
    ⟨none, none, none, none, false⟩ "A" "B" 5
  exact hforge
    (by intro s h
        have := congrArg String.length h
        simp [shaNeW] at this
        exact absurd this.1 (by decide))
    respW (List.replicate 32 0) "c" (by decide) (by decide) (by decide)
    (by decide)

end CodyChain
